import Mathlib

/-!
Formal model of the dense multi-attribute array storage engine that the
tutorial script `examples/multi_attribute.py` drives, together with a model of
the script itself.  The script in `src/` is pure glue over the engine; the
engine's own code is not part of `src/`, so the engine components below are
modelled from the specification (each such definition says so in its doc
comment).  The script-level definitions (`create_array`, `write_array`,
`read_array`, `read_array_subselect`, `scriptMain` and the concrete schema and
data) are translated from `src/examples/multi_attribute.py`.
-/

namespace TileDB

/-- Modelled from the spec: the error taxonomy of §7 and the per-operation
failure names of §4 (the engine's error type is not in `src/`).
`outOfDomain` is the spec's `DomainError`/`OutOfDomainError`,
`shapeMismatch` its `ShapeMismatchError`, `incompatibleMode` its
`ConcurrencyError`/`IncompatibleMode`, and `tileNotFound` its
`NotFoundError`/`TileNotFound` for a dense read of a never-written tile. -/
inductive Err
  | invalidDimension
  | alreadyExists
  | schemaNotFound
  | incompatibleMode
  | outOfDomain
  | shapeMismatch
  | attributeSchemaMismatch
  | unknownAttribute
  | tileNotFound
  | sessionClosed
  deriving DecidableEq

/-- Modelled from the spec: the closed set of fixed-size cell types (§3, §9):
a `uint8` scalar and a fixed pair of `float32`, the two attribute types the
example schema uses. -/
inductive CellType
  | uint8
  | f32pair
  deriving DecidableEq

/-- Modelled from the spec: a cell value.  The engine stores attribute
payloads verbatim and never computes with them, so the `float32` pair payload
is carried opaquely as a pair of exact rationals. -/
inductive Value
  | u8 (n : Nat)
  | f2 (x y : Rat)
  deriving DecidableEq

/-- The cell type a value inhabits, used for the `AttributeSchemaMismatch`
check of §4.4. -/
def Value.typeOf : Value → CellType
  | .u8 _ => .uint8
  | .f2 _ _ => .f32pair

/-- Modelled from the spec: a Dimension (§3): name, closed integer bounds
`[lo, hi]` and a positive tile extent. -/
structure Dim where
  name : String
  lo : Int
  hi : Int
  tile : Nat
  deriving DecidableEq

/-- Modelled from the spec: the Dimension invariant of §3 and §4.1:
`lo ≤ hi`, positive tile extent, extent at most the span. -/
def validDim (d : Dim) : Prop :=
  d.lo ≤ d.hi ∧ 0 < d.tile ∧ (d.tile : Int) ≤ d.hi - d.lo + 1

/-- All dimensions of a Domain satisfy the Dimension invariant. -/
def validDims (ds : List Dim) : Prop := ∀ d ∈ ds, validDim d

instance decValidDim (d : Dim) : Decidable (validDim d) := by
  unfold validDim
  infer_instance

instance decValidDims (ds : List Dim) : Decidable (validDims ds) := by
  unfold validDims
  infer_instance

/-- Modelled from the spec: a coordinate tuple lies within the Domain bounds
of every dimension (§4.2). -/
def inBounds : List Dim → List Int → Bool
  | [], [] => true
  | d :: ds, x :: xs => (decide (d.lo ≤ x) && decide (x ≤ d.hi)) && inBounds ds xs
  | _, _ => false

/-- Modelled from the spec: tile coordinate for one dimension,
`floor((coord - lo) / tileExtent)` (§4.2). -/
def tileIdx (d : Dim) (x : Int) : Nat := (x - d.lo).toNat / d.tile

/-- Modelled from the spec: in-tile residue for one dimension,
`(coord - lo) mod tileExtent` (§4.2). -/
def tileRes (d : Dim) (x : Int) : Nat := (x - d.lo).toNat % d.tile

/-- Per-dimension tile coordinates of a coordinate tuple. -/
def tileCoords : List Dim → List Int → List Nat
  | d :: ds, x :: xs => tileIdx d x :: tileCoords ds xs
  | _, _ => []

/-- Per-dimension in-tile residues of a coordinate tuple. -/
def residues : List Dim → List Int → List Nat
  | d :: ds, x :: xs => tileRes d x :: residues ds xs
  | _, _ => []

/-- Product of a list of naturals (tile capacity is the product of the tile
extents, §3). -/
def prodN : List Nat → Nat
  | [] => 1
  | t :: ts => t * prodN ts

/-- Modelled from the spec: row-major composition of the residues across
dimensions, using each dimension's tile extent as the stride radix (§4.2). -/
def linOff : List Nat → List Nat → Nat
  | r :: rs, _ :: ts => r * prodN ts + linOff rs ts
  | _, _ => 0

/-- In-tile linear offset of a coordinate tuple. -/
def cellOff (ds : List Dim) (c : List Int) : Nat :=
  linOff (residues ds c) (ds.map Dim.tile)

/-- Inverse of the row-major composition: peel residues off a linear offset,
radix by radix. -/
def delin : List Nat → Nat → List Nat
  | [], _ => []
  | _ :: ts, n => n / prodN ts :: delin ts (n % prodN ts)

/-- Rebuild a coordinate tuple from per-dimension tile coordinates and
residues: `lo + tileCoord * tileExtent + residue`. -/
def decodeAux : List Dim → List Nat → List Nat → List Int
  | d :: ds, t :: ts, r :: rs => (d.lo + ((t * d.tile + r : Nat) : Int)) :: decodeAux ds ts rs
  | _, _, _ => []

/-- Modelled from the spec: decoding direction of the Tile Layout Engine
(§4.2): from a tile-coordinate tuple and an in-tile linear offset back to the
logical coordinate tuple. -/
def decode (ds : List Dim) (tc : List Nat) (off : Nat) : List Int :=
  decodeAux ds tc (delin (ds.map Dim.tile) off)

/-- Modelled from the spec: encoding direction of the Tile Layout Engine
(§4.2), failing with `OutOfDomainError` if any coordinate lies outside its
dimension's bounds. -/
def encodeChecked (ds : List Dim) (c : List Int) : Except Err (List Nat × Nat) :=
  if inBounds ds c then .ok (tileCoords ds c, cellOff ds c) else .error .outOfDomain

/-- Modelled from the spec: a bounding region, one closed sub-interval per
dimension (§4.5). -/
abbrev Region := List (Int × Int)

/-- The integers of the closed interval `[a, b]`, in increasing order. -/
def intRange (a b : Int) : List Int :=
  (List.range (b + 1 - a).toNat).map (fun (k : Nat) => a + (k : Int))

/-- Prepend each element of `xs` to each tail in `ts`, in row-major order. -/
def crossCons (xs : List Int) (ts : List (List Int)) : List (List Int) :=
  match xs with
  | [] => []
  | x :: xr => ts.map (fun t => x :: t) ++ crossCons xr ts

/-- Modelled from the spec: the cells of a region enumerated in the Domain's
canonical row-major cell order (§4.5). -/
def regionCoords : Region → List (List Int)
  | [] => [[]]
  | (a, b) :: rs => crossCons (intRange a b) (regionCoords rs)

/-- Number of cells of a region (product of the interval lengths). -/
def cellCount (R : Region) : Nat :=
  prodN (R.map (fun p => (p.2 + 1 - p.1).toNat))

/-- Modelled from the spec: a region is a per-dimension nonempty closed
sub-interval of the Domain bounds (§4.5). -/
def regionInDomain : List Dim → Region → Bool
  | [], [] => true
  | d :: ds, (a, b) :: rs =>
    ((decide (d.lo ≤ a) && decide (a ≤ b)) && decide (b ≤ d.hi)) && regionInDomain ds rs
  | _, _ => false

/-- A physical tile is addressed by attribute name and tile-coordinate tuple
(§4.3: per-attribute buffers indexed by tile coordinate). -/
abbrev TKey := String × List Nat

/-- Modelled from the spec: the Columnar Storage state (§4.3): one buffer per
attribute per tile coordinate; a slot holds `none` while tagged unwritten. -/
abbrev TileMap := List (TKey × List (Option Value))

/-- Fetch the buffer stored for a tile key, if any. -/
def lookupTile : TileMap → TKey → Option (List (Option Value))
  | [], _ => none
  | (k', b) :: t, k => if k' = k then some b else lookupTile t k

/-- Write one cell of one tile, in one pass: allocate-or-fetch the tile's
buffer (§4.3 `allocateOrFetchTile`: created tagged unwritten — `none` slots,
padded to at least the tile capacity — if absent) and set the slot at the
in-tile offset (§4.3: cell `i` of a tile occupies slot `i`). -/
def setCell (cap : Nat) : TileMap → TKey → Nat → Value → TileMap
  | [], k, off, v => [(k, (List.replicate cap (none : Option Value)).set off (some v))]
  | (k', b) :: t, k, off, v =>
    if k' = k then (k', (b ++ List.replicate (cap - b.length) none).set off (some v)) :: t
    else (k', b) :: setCell cap t k off v

/-- Read one cell of one tile; `none` when the tile or the slot was never
written (§4.3: `readCells` fails with `TileNotFound` on a never-written
tile). -/
def getCell (tm : TileMap) (k : TKey) (off : Nat) : Option Value :=
  ((lookupTile tm k).getD []).getD off none

/-- Write a list of (coordinate, value) pairs for one attribute, routing each
cell through the Tile Layout Engine (§4.4 `write`). -/
def writePairs (cap : Nat) (a : String) (ds : List Dim) :
    TileMap → List (List Int × Value) → TileMap
  | tm, [] => tm
  | tm, (c, v) :: ps =>
    writePairs cap a ds (setCell cap tm (a, tileCoords ds c) (cellOff ds c) v) ps

/-- Write one buffer per supplied attribute over the cells of a region,
pairing the region's row-major cell sequence with the buffer elements. -/
def writeBufs (cap : Nat) (ds : List Dim) (R : Region) :
    TileMap → List (String × List Value) → TileMap
  | tm, [] => tm
  | tm, (a, vs) :: bs =>
    writeBufs cap ds R (writePairs cap a ds tm (List.zip (regionCoords R) vs)) bs

/-- Read the cells at the given coordinates for one attribute, in order,
failing with `TileNotFound` on any never-written cell (§4.3). -/
def readCellsA (tm : TileMap) (a : String) (ds : List Dim) :
    List (List Int) → Except Err (List Value)
  | [] => .ok []
  | c :: cs =>
    match getCell tm (a, tileCoords ds c) (cellOff ds c) with
    | none => .error .tileNotFound
    | some v =>
      match readCellsA tm a ds cs with
      | .error err => .error err
      | .ok vs => .ok (v :: vs)

/-- Materialize one output buffer per requested attribute, each in the
region's canonical row-major cell order (§4.5). -/
def readBufs (tm : TileMap) (ds : List Dim) (R : Region) :
    List String → Except Err (List (String × List Value))
  | [] => .ok []
  | a :: as =>
    match readCellsA tm a ds (regionCoords R) with
    | .error err => .error err
    | .ok vs =>
      match readBufs tm ds R as with
      | .error err => .error err
      | .ok rest => .ok ((a, vs) :: rest)

/-- Modelled from the spec: a Schema (§3): one Domain, an ordered attribute
list, and the `sparse` flag (`false` in this scope). -/
structure Schema where
  dims : List Dim
  attrs : List (String × CellType)
  sparse : Bool
  deriving DecidableEq

/-- Tile capacity of a schema: the product of the tile extents (§3). -/
def Schema.cap (σ : Schema) : Nat := prodN (σ.dims.map Dim.tile)

/-- Modelled from the spec: the Schema invariants `defineSchema` establishes
(§4.1): valid dimensions, no duplicate attribute name, nonempty attribute
set. -/
def validSchema (σ : Schema) : Prop :=
  validDims σ.dims ∧ (σ.attrs.map Prod.fst).Nodup ∧ σ.attrs ≠ []

/-- Look up an attribute's cell type by name in a schema's attribute list. -/
def findType : List (String × CellType) → String → Option CellType
  | [], _ => none
  | (n, t) :: r, a => if n = a then some t else findType r a

/-- Every supplied buffer has exactly the given length (§4.4: buffer lengths
must equal the cell count of the region). -/
def bufsSized (n : Nat) (bufs : List (String × List Value)) : Bool :=
  bufs.all (fun b => decide (b.2.length = n))

/-- Every supplied attribute name exists in the schema with every buffer
element of its declared cell type (§4.4 `AttributeSchemaMismatch`). -/
def bufsTyped (σ : Schema) : List (String × List Value) → Bool
  | [] => true
  | (a, vs) :: bs =>
    (match findType σ.attrs a with
     | none => false
     | some ty => vs.all (fun v => decide (v.typeOf = ty))) && bufsTyped σ bs

/-- Every requested attribute name exists in the schema (§4.5
`UnknownAttribute`). -/
def attrsKnown (σ : Schema) (names : List String) : Bool :=
  names.all (fun a => (findType σ.attrs a).isSome)

/-- Modelled from the spec: a session is opened in exactly one of the two
modes (§4.4). -/
inductive Mode
  | read
  | write
  deriving DecidableEq

/-- Modelled from the spec: an open Array Session (§4.4, §5): its mode, the
schema it was opened against, its private view of the tiles (the snapshot
taken at `open()`, mutated in place by a write session and made visible only
at `close()`), and whether it has been closed. -/
structure Session where
  mode : Mode
  schema : Schema
  snapshot : TileMap
  closed : Bool
  deriving DecidableEq

/-- Modelled from the spec: `write(session, region, attributeBuffers)`
(§4.4): requires an open write-mode session; fails with `ShapeMismatch` if a
buffer length differs from the region cell count, with `OutOfDomainError` if
the region leaves the Domain, with `AttributeSchemaMismatch` if a supplied
attribute name or type disagrees with the Schema; on success the region's
cells are written into the session's pending tiles and nothing else changes.
A failing call returns only the error, so every tile is left unchanged (no
partial writes, §8). -/
def Session.write (s : Session) (R : Region) (bufs : List (String × List Value)) :
    Except Err Session :=
  if s.closed then .error .sessionClosed
  else if s.mode = Mode.write then
    if bufsSized (cellCount R) bufs then
      if regionInDomain s.schema.dims R then
        if bufsTyped s.schema bufs then
          .ok { s with snapshot := writeBufs s.schema.cap s.schema.dims R s.snapshot bufs }
        else .error .attributeSchemaMismatch
      else .error .outOfDomain
    else .error .shapeMismatch
  else .error .incompatibleMode

/-- Modelled from the spec: `read(session, region, attributeNames?)` (§4.5):
fails with `OutOfDomainError` if the region exceeds the Domain bounds (before
any storage is consulted), with `UnknownAttribute` if a requested attribute is
not in the Schema; with no attribute filter it returns all Schema attributes.
The result is materialized per attribute in canonical row-major order. -/
def Session.read (s : Session) (R : Region) (asel : Option (List String)) :
    Except Err (List (String × List Value)) :=
  if s.closed then .error .sessionClosed
  else if regionInDomain s.schema.dims R then
    if attrsKnown s.schema (asel.getD (s.schema.attrs.map Prod.fst)) then
      readBufs s.snapshot s.schema.dims R (asel.getD (s.schema.attrs.map Prod.fst))
    else .error .unknownAttribute
  else .error .outOfDomain

/-- Modelled from the spec: the persistent engine state at one array location
(§3, §5): the array (schema) if created, its committed tiles, whether a write
session is currently open, and the number of open read sessions. -/
structure Engine where
  arr : Option Schema
  tiles : TileMap
  writeOpen : Bool
  readCount : Nat
  deriving DecidableEq

/-- The fresh engine state: no array created, no open session. -/
def Engine.init : Engine := ⟨none, [], false, 0⟩

/-- Modelled from the spec: `create(schema, location)` (§4.4): fails with
`AlreadyExists` if a valid array is already present, otherwise persists the
schema and an empty tile index. -/
def createArray (e : Engine) (σ : Schema) : Except Err Engine :=
  if e.arr.isSome then .error .alreadyExists
  else .ok { e with arr := some σ, tiles := [] }

/-- Modelled from the spec: `tiledb.object_type` as the script uses it: the
string "array" when a valid array is present at the location. -/
def objectType (e : Engine) : String :=
  if e.arr.isSome then "array" else "invalid"

/-- Modelled from the spec: `open(location, mode)` (§4.4, §5): fails with
`SchemaNotFound` if no array exists; write-opening fails fast with
`IncompatibleMode` while another write session is active (no blocking or
queuing — the call returns the error synchronously); read-opening always
succeeds and snapshots the committed tiles as of the call. -/
def openSession (e : Engine) (m : Mode) : Except Err (Engine × Session) :=
  match e.arr with
  | none => .error .schemaNotFound
  | some σ =>
    match m with
    | Mode.write =>
      if e.writeOpen then .error .incompatibleMode
      else .ok ({ e with writeOpen := true }, ⟨Mode.write, σ, e.tiles, false⟩)
    | Mode.read =>
      .ok ({ e with readCount := e.readCount + 1 }, ⟨Mode.read, σ, e.tiles, false⟩)

/-- Modelled from the spec: `close(session)` (§4.4, §5): a first close of a
write session flushes its pending tiles into the committed state and releases
the write capability; a first close of a read session releases its read
capability; a second close is a no-op that does not error and changes no
state. `close` is total — it never fails. -/
def closeSession (e : Engine) (s : Session) : Engine × Session :=
  if s.closed then (e, s)
  else
    match s.mode with
    | Mode.write => ({ e with tiles := s.snapshot, writeOpen := false }, { s with closed := true })
    | Mode.read => ({ e with readCount := e.readCount - 1 }, { s with closed := true })

/-- From the source (`create_array`, lines 54-57): the 4x4 Domain with
dimensions "rows" and "cols", bounds `[1, 4]`, tile extent 4. -/
def scriptDomain : List Dim :=
  [⟨"rows", 1, 4, 4⟩, ⟨"cols", 1, 4, 4⟩]

/-- From the source (`create_array`, lines 61-64): the schema with attributes
`a1 : uint8` and `a2 : (float32, float32)`, dense. -/
def scriptSchema : Schema :=
  ⟨scriptDomain, [("a1", CellType.uint8), ("a2", CellType.f32pair)], false⟩

/-- From the source (`write_array`, lines 74-75): the `a1` data, the ordinals
of the characters from the letter a through the letter p. -/
def data_a1 : List Value :=
  [Value.u8 97, Value.u8 98, Value.u8 99, Value.u8 100,
   Value.u8 101, Value.u8 102, Value.u8 103, Value.u8 104,
   Value.u8 105, Value.u8 106, Value.u8 107, Value.u8 108,
   Value.u8 109, Value.u8 110, Value.u8 111, Value.u8 112]

/-- From the source (`write_array`, lines 76-80): the `a2` data, the pairs
(1.1, 1.2) through (16.1, 16.2), written here as exact rationals. -/
def data_a2 : List Value :=
  [Value.f2 (11/10) (12/10), Value.f2 (21/10) (22/10),
   Value.f2 (31/10) (32/10), Value.f2 (41/10) (42/10),
   Value.f2 (51/10) (52/10), Value.f2 (61/10) (62/10),
   Value.f2 (71/10) (72/10), Value.f2 (81/10) (82/10),
   Value.f2 (91/10) (92/10), Value.f2 (101/10) (102/10),
   Value.f2 (111/10) (112/10), Value.f2 (121/10) (122/10),
   Value.f2 (131/10) (132/10), Value.f2 (141/10) (142/10),
   Value.f2 (151/10) (152/10), Value.f2 (161/10) (162/10)]

/-- The attribute-buffer mapping of the source's full-array assignment
(`write_array`, line 81). -/
def scriptBufs : List (String × List Value) :=
  [("a1", data_a1), ("a2", data_a2)]

/-- The full-array region `A[:, :]` of the source: rows `[1, 4]`,
cols `[1, 4]`. -/
def fullRegion : Region := [(1, 4), (1, 4)]

/-- The slice `A[1:3, 2:5]` of the source (lines 89 and 102): rows `[1, 2]`,
cols `[2, 4]` in closed-interval form. -/
def sliceRegion : Region := [(1, 2), (2, 4)]

/-- From the source (`create_array`, lines 46-67): return without creating
when an array object already exists, otherwise create the array with the
script's schema. -/
def create_array (e : Engine) : Except Err Engine :=
  if objectType e = "array" then .ok e else createArray e scriptSchema

/-- From the source (`write_array`, lines 70-81): open a write session, write
both attribute buffers over the full array, close. -/
def write_array (e : Engine) : Except Err Engine :=
  match openSession e Mode.write with
  | .error err => .error err
  | .ok es =>
    match Session.write es.2 fullRegion scriptBufs with
    | .error err => .error err
    | .ok s2 => .ok (closeSession es.1 s2).1

/-- From the source (`read_array`, lines 84-93): open a read session, read the
slice on both attributes, close. -/
def read_array (e : Engine) : Except Err (Engine × List (String × List Value)) :=
  match openSession e Mode.read with
  | .error err => .error err
  | .ok es =>
    match Session.read es.2 sliceRegion none with
    | .error err => .error err
    | .ok d => .ok ((closeSession es.1 es.2).1, d)

/-- From the source (`read_array_subselect`, lines 96-105): the same slice
read restricted to attribute `a1` via the query interface. -/
def read_array_subselect (e : Engine) : Except Err (Engine × List (String × List Value)) :=
  match openSession e Mode.read with
  | .error err => .error err
  | .ok es =>
    match Session.read es.2 sliceRegion (some ["a1"]) with
    | .error err => .error err
    | .ok d => .ok ((closeSession es.1 es.2).1, d)

/-- From the source (lines 108-111): the script's toplevel sequence — create,
write, read both attributes, read the subselection.  An error at any step
propagates as the script's uncaught exception and later steps do not run. -/
def scriptMain (e : Engine) :
    Except Err (List (String × List Value) × List (String × List Value)) :=
  match create_array e with
  | .error err => .error err
  | .ok e1 =>
    match write_array e1 with
    | .error err => .error err
    | .ok e2 =>
      match read_array e2 with
      | .error err => .error err
      | .ok p1 =>
        match read_array_subselect p1.1 with
        | .error err => .error err
        | .ok p2 => .ok (p1.2, p2.2)

/-- The tile state after the script's full-array write, starting from the
empty tile index; used to instantiate theorems at a concrete well-written
state. -/
def demoWritten : TileMap :=
  writeBufs scriptSchema.cap scriptSchema.dims fullRegion [] scriptBufs

/-- A concrete open read session over the fully written script array. -/
def demoReadSession : Session :=
  ⟨Mode.read, scriptSchema, demoWritten, false⟩

/-- The `a1` values the tutorial expects for the slice: the ordinals of the
letters b, c, d, f, g, h. -/
def expected_a1 : List Value :=
  [Value.u8 98, Value.u8 99, Value.u8 100, Value.u8 102, Value.u8 103, Value.u8 104]

/-- The `a2` pairs the tutorial expects for the slice: (2.1, 2.2), (3.1, 3.2),
(4.1, 4.2), (6.1, 6.2), (7.1, 7.2), (8.1, 8.2). -/
def expected_a2 : List Value :=
  [Value.f2 (21/10) (22/10), Value.f2 (31/10) (32/10), Value.f2 (41/10) (42/10),
   Value.f2 (61/10) (62/10), Value.f2 (71/10) (72/10), Value.f2 (81/10) (82/10)]

/-- Setting a slot within range and reading it back gives the new value. -/
theorem getD_set_self (l : List (Option Value)) (i : Nat) (v : Value) (h : i < l.length) :
    (l.set i (some v)).getD i none = some v := by
  induction l generalizing i with
  | nil => simp at h
  | cons hd tl ih =>
    cases i with
    | zero => simp
    | succ j => simpa using ih j (by simpa using h)

/-- Setting one slot leaves every other slot unchanged. -/
theorem getD_set_ne (l : List (Option Value)) (i j : Nat) (x : Option Value) (h : i ≠ j) :
    (l.set i x).getD j none = l.getD j none := by
  induction l generalizing i j with
  | nil => simp
  | cons hd tl ih =>
    cases i with
    | zero =>
      cases j with
      | zero => exact absurd rfl h
      | succ j' => simp
    | succ i' =>
      cases j with
      | zero => simp
      | succ j' => simpa using ih i' j' (fun hc => h (by simp [hc]))

/-- Setting any slot preserves the writtenness of every slot. -/
theorem getD_set_isSome (l : List (Option Value)) (i j : Nat) (v : Value)
    (h : (l.getD j none).isSome = true) :
    ((l.set i (some v)).getD j none).isSome = true := by
  rcases eq_or_ne i j with rfl | hne
  · by_cases hlen : i < l.length
    · rw [getD_set_self l i v hlen]; rfl
    · rw [List.set_eq_of_length_le (Nat.le_of_not_lt hlen)]; exact h
  · rw [getD_set_ne l i j _ hne]; exact h

/-- A buffer of unwritten slots reads as unwritten at every offset. -/
theorem getD_replicate_none (m i : Nat) :
    (List.replicate m (none : Option Value)).getD i none = none := by
  induction m generalizing i with
  | zero => simp
  | succ m ih =>
    cases i with
    | zero => simp [List.replicate]
    | succ j => simp [List.replicate, ih j]

/-- Padding with unwritten slots changes no slot's content. -/
theorem getD_append_pad (l : List (Option Value)) (m i : Nat) :
    ((l ++ List.replicate m none).getD i none) = l.getD i none := by
  induction l generalizing i with
  | nil => simp [getD_replicate_none m i]
  | cons hd tl ih =>
    cases i with
    | zero => simp
    | succ j => simpa using ih j

/-- Reading the empty tile index finds nothing. -/
theorem getCell_nil (k : TKey) (off : Nat) : getCell [] k off = none := rfl

/-- Reading a nonempty tile index checks the head entry first. -/
theorem getCell_cons (ka : TKey) (b : List (Option Value)) (t : TileMap) (k : TKey)
    (off : Nat) :
    getCell ((ka, b) :: t) k off = if ka = k then b.getD off none else getCell t k off := by
  by_cases h : ka = k
  · simp [getCell, lookupTile, h]
  · simp [getCell, lookupTile, h]

/-- Writing into the empty tile index allocates one fresh tile. -/
theorem setCell_nil (cap : Nat) (k : TKey) (off : Nat) (v : Value) :
    setCell cap [] k off v =
      [(k, (List.replicate cap (none : Option Value)).set off (some v))] := rfl

/-- Writing into a nonempty tile index updates the head tile or recurses. -/
theorem setCell_cons (cap : Nat) (ka : TKey) (b : List (Option Value)) (t : TileMap)
    (k : TKey) (off : Nat) (v : Value) :
    setCell cap ((ka, b) :: t) k off v =
      if ka = k then (ka, (b ++ List.replicate (cap - b.length) none).set off (some v)) :: t
      else (ka, b) :: setCell cap t k off v := rfl

/-- Reading the cell just written gives the written value, as long as the
in-tile offset lies below the tile capacity. -/
theorem getCell_setCell_self (cap : Nat) (tm : TileMap) (k : TKey) (off : Nat) (v : Value)
    (h : off < cap) : getCell (setCell cap tm k off v) k off = some v := by
  induction tm with
  | nil =>
    rw [setCell_nil, getCell_cons, if_pos rfl]
    exact getD_set_self _ _ _ (by simpa using h)
  | cons hd tl ih =>
    cases hd with
    | mk ka b =>
      rw [setCell_cons]
      by_cases hka : ka = k
      · rw [if_pos hka, getCell_cons, if_pos hka]
        refine getD_set_self _ _ _ ?_
        simp only [List.length_append, List.length_replicate]
        omega
      · rw [if_neg hka, getCell_cons, if_neg hka]
        exact ih

/-- Writing one cell leaves every other cell unchanged. -/
theorem getCell_setCell_ne (cap : Nat) (tm : TileMap) (k k' : TKey) (off off' : Nat) (v : Value)
    (h : ¬(k' = k ∧ off' = off)) :
    getCell (setCell cap tm k off v) k' off' = getCell tm k' off' := by
  induction tm with
  | nil =>
    rw [setCell_nil, getCell_cons, getCell_nil]
    by_cases hk : k = k'
    · have hoff : off' ≠ off := fun hc => h ⟨hk.symm, hc⟩
      rw [if_pos hk, getD_set_ne _ _ _ _ (Ne.symm hoff), getD_replicate_none]
    · rw [if_neg hk]
  | cons hd tl ih =>
    cases hd with
    | mk ka b =>
      rw [setCell_cons]
      by_cases hka : ka = k
      · rw [if_pos hka, getCell_cons, getCell_cons]
        by_cases hk2 : ka = k'
        · have hoff : off' ≠ off := fun hc => h ⟨hk2.symm.trans hka, hc⟩
          rw [if_pos hk2, if_pos hk2, getD_set_ne _ _ _ _ (Ne.symm hoff), getD_append_pad]
        · rw [if_neg hk2, if_neg hk2]
      · rw [if_neg hka, getCell_cons, getCell_cons]
        by_cases hk2 : ka = k'
        · rw [if_pos hk2, if_pos hk2]
        · rw [if_neg hk2, if_neg hk2]
          exact ih

/-- Writing one cell preserves the writtenness of every cell. -/
theorem getCell_setCell_isSome (cap : Nat) (tm : TileMap) (k k' : TKey) (off off' : Nat)
    (v : Value) (h : (getCell tm k' off').isSome = true) :
    (getCell (setCell cap tm k off v) k' off').isSome = true := by
  induction tm with
  | nil =>
    rw [getCell_nil] at h
    simp at h
  | cons hd tl ih =>
    cases hd with
    | mk ka b =>
      rw [getCell_cons] at h
      rw [setCell_cons]
      by_cases hka : ka = k
      · rw [if_pos hka, getCell_cons]
        by_cases hk2 : ka = k'
        · rw [if_pos hk2] at h
          rw [if_pos hk2]
          refine getD_set_isSome _ _ _ _ ?_
          rw [getD_append_pad]
          exact h
        · rw [if_neg hk2] at h
          rw [if_neg hk2]
          exact h
      · rw [if_neg hka, getCell_cons]
        by_cases hk2 : ka = k'
        · rw [if_pos hk2] at h
          rw [if_pos hk2]
          exact h
        · rw [if_neg hk2] at h
          rw [if_neg hk2]
          exact ih h

/-- An in-bounds coordinate tuple has one entry per dimension. -/
theorem length_of_inBounds (ds : List Dim) (c : List Int) (h : inBounds ds c = true) :
    c.length = ds.length := by
  induction ds generalizing c with
  | nil => cases c with
    | nil => rfl
    | cons x xs => simp [inBounds] at h
  | cons d ds ih =>
    cases c with
    | nil => simp [inBounds] at h
    | cons x xs =>
      simp only [inBounds, Bool.and_eq_true] at h
      simp [ih xs h.2]

/-- Every residue of an in-bounds coordinate is below its tile extent. -/
theorem residues_lt (ds : List Dim) (c : List Int) (hv : validDims ds)
    (hb : inBounds ds c = true) :
    List.Forall₂ (· < ·) (residues ds c) (ds.map Dim.tile) := by
  induction ds generalizing c with
  | nil => cases c with
    | nil => simp [residues]
    | cons x xs => simp [inBounds] at hb
  | cons d ds ih =>
    cases c with
    | nil => simp [inBounds] at hb
    | cons x xs =>
      simp only [inBounds, Bool.and_eq_true] at hb
      have hd : validDim d := hv d (by simp)
      refine List.Forall₂.cons ?_ (ih xs (fun d' hd' => hv d' (by simp [hd'])) hb.2)
      exact Nat.mod_lt _ hd.2.1

/-- The product of a list of positive naturals is positive. -/
theorem prodN_pos (ts : List Nat) (h : ∀ t ∈ ts, 0 < t) : 0 < prodN ts := by
  induction ts with
  | nil => simp [prodN]
  | cons t ts ih =>
    simp only [prodN]
    exact Nat.mul_pos (h t (by simp)) (ih (fun t' ht' => h t' (by simp [ht'])))

/-- The row-major offset of residues below their radices is below the tile
capacity. -/
theorem linOff_lt (rs ts : List Nat) (h : List.Forall₂ (· < ·) rs ts) :
    linOff rs ts < prodN ts := by
  induction h with
  | nil => simp [linOff, prodN]
  | @cons r t rs ts hrt _ ih =>
    simp only [linOff, prodN]
    calc r * prodN ts + linOff rs ts < r * prodN ts + prodN ts := by omega
    _ = (r + 1) * prodN ts := by ring
    _ ≤ t * prodN ts := Nat.mul_le_mul_right _ hrt

/-- Peeling a row-major offset recovers the residues it was composed from. -/
theorem delin_linOff (rs ts : List Nat) (h : List.Forall₂ (· < ·) rs ts) :
    delin ts (linOff rs ts) = rs := by
  induction h with
  | nil => simp [delin, linOff]
  | @cons r t rs ts hrt htail ih =>
    have hpos : 0 < prodN ts := by
      apply prodN_pos
      intro t' ht'
      rcases List.forall₂_iff_get.mp htail with ⟨hlen, hget⟩
      rcases List.mem_iff_get.mp ht' with ⟨i, rfl⟩
      exact Nat.lt_of_le_of_lt (Nat.zero_le _) (hget i (by omega) (by omega))
    have hlt : linOff rs ts < prodN ts := linOff_lt rs ts htail
    simp only [delin, linOff]
    have h1 : (r * prodN ts + linOff rs ts) / prodN ts = r := by
      rw [Nat.add_comm, Nat.add_mul_div_right _ _ hpos, Nat.div_eq_of_lt hlt, Nat.zero_add]
    have h2 : (r * prodN ts + linOff rs ts) % prodN ts = linOff rs ts := by
      rw [Nat.add_comm, Nat.add_mul_mod_self_right, Nat.mod_eq_of_lt hlt]
    rw [h1, h2, ih]

/-- Rebuilding each dimension from its tile coordinate and residue recovers
the original in-bounds coordinate. -/
theorem decodeAux_tileCoords (ds : List Dim) (c : List Int) (hv : validDims ds)
    (hb : inBounds ds c = true) :
    decodeAux ds (tileCoords ds c) (residues ds c) = c := by
  induction ds generalizing c with
  | nil => cases c with
    | nil => rfl
    | cons x xs => simp [inBounds] at hb
  | cons d ds ih =>
    cases c with
    | nil => simp [inBounds] at hb
    | cons x xs =>
      simp only [inBounds, Bool.and_eq_true, decide_eq_true_eq] at hb
      have hd : validDim d := hv d (by simp)
      simp only [tileCoords, residues, decodeAux]
      have hmod : tileIdx d x * d.tile + tileRes d x = (x - d.lo).toNat := by
        simp only [tileIdx, tileRes]
        rw [Nat.mul_comm]
        exact Nat.div_add_mod _ _
      have hx : d.lo + ((tileIdx d x * d.tile + tileRes d x : Nat) : Int) = x := by
        rw [hmod, Int.toNat_of_nonneg (by omega)]
        omega
      rw [hx, ih xs (fun d' hd' => hv d' (by simp [hd'])) hb.2]

/-- Claim C2 core: decoding the encoding of an in-bounds coordinate yields the
coordinate again. -/
theorem decode_encode (ds : List Dim) (c : List Int) (hv : validDims ds)
    (hb : inBounds ds c = true) :
    decode ds (tileCoords ds c) (cellOff ds c) = c := by
  unfold decode cellOff
  rw [delin_linOff _ _ (residues_lt ds c hv hb)]
  exact decodeAux_tileCoords ds c hv hb

/-- The layout mapping is injective on in-bounds coordinates. -/
theorem encode_inj (ds : List Dim) (c c' : List Int) (hv : validDims ds)
    (hb : inBounds ds c = true) (hb' : inBounds ds c' = true)
    (ht : tileCoords ds c = tileCoords ds c') (ho : cellOff ds c = cellOff ds c') :
    c = c' := by
  have h1 := decode_encode ds c hv hb
  have h2 := decode_encode ds c' hv hb'
  rw [ht, ho] at h1
  exact h1.symm.trans h2

/-- Membership in a closed integer interval. -/
theorem mem_intRange (a b x : Int) : x ∈ intRange a b ↔ a ≤ x ∧ x ≤ b := by
  simp only [intRange, List.mem_map, List.mem_range]
  constructor
  · rintro ⟨k, hk, rfl⟩
    omega
  · rintro ⟨h1, h2⟩
    exact ⟨(x - a).toNat, by omega, by omega⟩

/-- The enumeration of a closed interval has no duplicates. -/
theorem nodup_intRange (a b : Int) : (intRange a b).Nodup := by
  apply List.Nodup.map
  · intro k k' h
    have hh : a + (k : Int) = a + (k' : Int) := h
    omega
  · exact List.nodup_range _

/-- The enumeration of a closed interval has one element per integer. -/
theorem length_intRange (a b : Int) : (intRange a b).length = (b + 1 - a).toNat := by
  simp [intRange]

/-- Membership in the row-major cross product. -/
theorem mem_crossCons (xs : List Int) (ts : List (List Int)) (c : List Int) :
    c ∈ crossCons xs ts ↔ ∃ x ∈ xs, ∃ t ∈ ts, c = x :: t := by
  induction xs with
  | nil => simp [crossCons]
  | cons x xr ih =>
    simp only [crossCons, List.mem_append, List.mem_map, ih, List.mem_cons]
    constructor
    · rintro (⟨t, ht, rfl⟩ | ⟨y, hy, t, ht, rfl⟩)
      · exact ⟨x, Or.inl rfl, t, ht, rfl⟩
      · exact ⟨y, Or.inr hy, t, ht, rfl⟩
    · rintro ⟨y, hy | hy, t, ht, rfl⟩
      · exact Or.inl ⟨t, ht, by rw [hy]⟩
      · exact Or.inr ⟨y, hy, t, ht, rfl⟩

/-- The row-major cross product of duplicate-free factors is
duplicate-free. -/
theorem nodup_crossCons (xs : List Int) (ts : List (List Int))
    (hx : xs.Nodup) (ht : ts.Nodup) : (crossCons xs ts).Nodup := by
  induction xs with
  | nil => simp [crossCons]
  | cons x xr ih =>
    simp only [crossCons]
    rcases List.nodup_cons.mp hx with ⟨hxm, hxr⟩
    apply List.Nodup.append
    · exact ht.map (fun t t' h => by injection h)
    · exact ih hxr
    · intro c hc1 hc2
      rcases List.mem_map.mp hc1 with ⟨t, _, rfl⟩
      rcases (mem_crossCons xr ts _).mp hc2 with ⟨y, hy, t', _, heq⟩
      injection heq with h1 _
      exact hxm (h1 ▸ hy)

/-- The row-major cross product has one entry per pair of factors. -/
theorem length_crossCons (xs : List Int) (ts : List (List Int)) :
    (crossCons xs ts).length = xs.length * ts.length := by
  induction xs with
  | nil => simp [crossCons]
  | cons x xr ih =>
    simp only [crossCons, List.length_append, List.length_map, List.length_cons, ih]
    ring

/-- The region enumeration covers exactly the region's cell count. -/
theorem length_regionCoords (R : Region) : (regionCoords R).length = cellCount R := by
  induction R with
  | nil => simp [regionCoords, cellCount, prodN]
  | cons p rs ih =>
    cases p with
    | mk a b =>
      simp only [regionCoords, cellCount, List.map_cons, prodN] at *
      rw [length_crossCons, length_intRange, ih]

/-- The region enumeration never repeats a cell. -/
theorem nodup_regionCoords (R : Region) : (regionCoords R).Nodup := by
  induction R with
  | nil => simp [regionCoords]
  | cons p rs ih =>
    cases p with
    | mk a b => exact nodup_crossCons _ _ (nodup_intRange a b) ih

/-- Every cell of a region that lies in the Domain is in bounds. -/
theorem inBounds_of_mem_regionCoords (ds : List Dim) (R : Region) (c : List Int)
    (hR : regionInDomain ds R = true) (hc : c ∈ regionCoords R) :
    inBounds ds c = true := by
  induction ds generalizing R c with
  | nil =>
    cases R with
    | nil =>
      simp only [regionCoords, List.mem_singleton] at hc
      simp [hc, inBounds]
    | cons p rs => cases p; simp [regionInDomain] at hR
  | cons d ds ih =>
    cases R with
    | nil => simp [regionInDomain] at hR
    | cons p rs =>
      cases p with
      | mk a b =>
        simp only [regionInDomain, Bool.and_eq_true, decide_eq_true_eq] at hR
        rcases (mem_crossCons _ _ _).mp hc with ⟨x, hx, t, ht, rfl⟩
        rcases (mem_intRange a b x).mp hx with ⟨h1, h2⟩
        simp only [inBounds, Bool.and_eq_true, decide_eq_true_eq]
        exact ⟨⟨by omega, by omega⟩, ih rs t hR.2 ht⟩

/-- A batch write leaves untouched every cell whose location differs from
every written cell's location. -/
theorem getCell_writePairs_fresh (cap : Nat) (a : String) (ds : List Dim)
    (ps : List (List Int × Value)) (k : TKey) (off : Nat)
    (h : ∀ p ∈ ps, ¬(k = (a, tileCoords ds p.1) ∧ off = cellOff ds p.1)) :
    ∀ tm, getCell (writePairs cap a ds tm ps) k off = getCell tm k off := by
  induction ps with
  | nil => intro tm; rfl
  | cons p ps ih =>
    intro tm
    cases p with
    | mk c v =>
      simp only [writePairs]
      rw [ih (fun q hq => h q (by simp [hq]))]
      exact getCell_setCell_ne cap tm _ k _ off v (h (c, v) (by simp))

/-- A batch write for one attribute never touches another attribute's
cells. -/
theorem getCell_writePairs_otherattr (cap : Nat) (a a' : String) (ds : List Dim)
    (ps : List (List Int × Value)) (tcs : List Nat) (off : Nat) (hne : a' ≠ a) (tm : TileMap) :
    getCell (writePairs cap a' ds tm ps) (a, tcs) off = getCell tm (a, tcs) off := by
  apply getCell_writePairs_fresh
  intro p _ hc
  exact hne (congrArg Prod.fst hc.1).symm

/-- Reading back, in order, the distinct in-bounds cells just written for one
attribute returns exactly the written values. -/
theorem read_writePairs (cap : Nat) (a : String) (ds : List Dim)
    (hcap : cap = prodN (ds.map Dim.tile)) (hv : validDims ds)
    (ps : List (List Int × Value)) (hnd : (ps.map Prod.fst).Nodup)
    (hb : ∀ p ∈ ps, inBounds ds p.1 = true) :
    ∀ tm, readCellsA (writePairs cap a ds tm ps) a ds (ps.map Prod.fst) =
      .ok (ps.map Prod.snd) := by
  induction ps with
  | nil => intro tm; rfl
  | cons p ps ih =>
    intro tm
    cases p with
    | mk c v =>
      simp only [writePairs, List.map_cons]
      have hbc : inBounds ds c = true := hb (c, v) (by simp)
      have hcm : c ∉ ps.map Prod.fst := by
        simp only [List.map_cons, List.nodup_cons] at hnd
        exact hnd.1
      have hhead :
          getCell (writePairs cap a ds (setCell cap tm (a, tileCoords ds c) (cellOff ds c) v) ps)
            (a, tileCoords ds c) (cellOff ds c) = some v := by
        rw [getCell_writePairs_fresh cap a ds ps _ _ ?_]
        · apply getCell_setCell_self
          rw [hcap]
          exact linOff_lt _ _ (residues_lt ds c hv hbc)
        · intro q hq hcontra
          have hq1 : tileCoords ds q.1 = tileCoords ds c := by
            have := hcontra.1
            injection this with h1 h2
            exact h2.symm
          have hq2 : cellOff ds q.1 = cellOff ds c := hcontra.2.symm
          have : q.1 = c := encode_inj ds q.1 c hv (hb q (by simp [hq])) hbc hq1 hq2
          exact hcm (this ▸ List.mem_map_of_mem Prod.fst hq)
      have htail := ih (by simpa using List.Nodup.of_cons (by simpa using hnd))
        (fun q hq => hb q (by simp [hq]))
        (setCell cap tm (a, tileCoords ds c) (cellOff ds c) v)
      simp only [readCellsA, hhead, htail]

/-- Reading a list of cells depends only on the contents of those cells. -/
theorem readCellsA_congr (tm1 tm2 : TileMap) (a : String) (ds : List Dim)
    (cs : List (List Int))
    (h : ∀ c ∈ cs, getCell tm1 (a, tileCoords ds c) (cellOff ds c) =
      getCell tm2 (a, tileCoords ds c) (cellOff ds c)) :
    readCellsA tm1 a ds cs = readCellsA tm2 a ds cs := by
  induction cs with
  | nil => rfl
  | cons c cs ih =>
    simp only [readCellsA]
    rw [h c (by simp), ih (fun c' hc' => h c' (by simp [hc']))]

/-- Writing buffers for other attribute names never touches this attribute's
cells. -/
theorem getCell_writeBufs_otherattr (cap : Nat) (ds : List Dim) (R : Region)
    (bs : List (String × List Value)) (a : String) (tcs : List Nat) (off : Nat)
    (h : ∀ b ∈ bs, b.1 ≠ a) :
    ∀ tm, getCell (writeBufs cap ds R tm bs) (a, tcs) off = getCell tm (a, tcs) off := by
  induction bs with
  | nil => intro tm; rfl
  | cons b bs ih =>
    intro tm
    cases b with
    | mk a' vs =>
      simp only [writeBufs]
      rw [ih (fun q hq => h q (by simp [hq]))]
      exact getCell_writePairs_otherattr cap a a' ds _ tcs off (h (a', vs) (by simp)) tm

/-- Claim C1 core: a multi-attribute region write followed by a read of the
same region over the resulting tiles returns exactly the written buffers, per
attribute, in canonical row-major order. -/
theorem readBufs_writeBufs (cap : Nat) (ds : List Dim) (R : Region)
    (hcap : cap = prodN (ds.map Dim.tile)) (hv : validDims ds)
    (hR : regionInDomain ds R = true)
    (bufs : List (String × List Value)) (hnd : (bufs.map Prod.fst).Nodup)
    (hsz : ∀ b ∈ bufs, b.2.length = cellCount R) :
    ∀ tm, readBufs (writeBufs cap ds R tm bufs) ds R (bufs.map Prod.fst) = .ok bufs := by
  induction bufs with
  | nil => intro tm; rfl
  | cons b bs ih =>
    intro tm
    cases b with
    | mk a vs =>
      simp only [writeBufs, List.map_cons]
      have hlen : (regionCoords R).length = vs.length := by
        rw [length_regionCoords, hsz (a, vs) (by simp)]
      have hfst : (List.zip (regionCoords R) vs).map Prod.fst = regionCoords R :=
        List.map_fst_zip _ _ (le_of_eq hlen)
      have hsnd : (List.zip (regionCoords R) vs).map Prod.snd = vs :=
        List.map_snd_zip _ _ (ge_of_eq hlen)
      have ham : a ∉ bs.map Prod.fst := by
        simp only [List.map_cons, List.nodup_cons] at hnd
        exact hnd.1
      have hhead :
          readCellsA (writeBufs cap ds R (writePairs cap a ds tm (List.zip (regionCoords R) vs)) bs)
            a ds (regionCoords R) = .ok vs := by
        rw [readCellsA_congr _ (writePairs cap a ds tm (List.zip (regionCoords R) vs)) a ds _ ?_]
        · have := read_writePairs cap a ds hcap hv (List.zip (regionCoords R) vs)
            (by rw [hfst]; exact nodup_regionCoords R)
            (by
              intro p hp
              apply inBounds_of_mem_regionCoords ds R p.1 hR
              exact hfst ▸ List.mem_map_of_mem Prod.fst hp) tm
          rw [hfst, hsnd] at this
          exact this
        · intro c _
          apply getCell_writeBufs_otherattr
          intro q hq
          intro hcq
          exact ham (hcq ▸ List.mem_map_of_mem Prod.fst hq)
      have htail := ih (by simpa using List.Nodup.of_cons (by simpa using hnd))
        (fun q hq => hsz q (by simp [hq]))
        (writePairs cap a ds tm (List.zip (regionCoords R) vs))
      simp only [readBufs, hhead, htail]

/-- A batch write preserves the writtenness of every cell. -/
theorem getCell_writePairs_isSome (cap : Nat) (a : String) (ds : List Dim)
    (ps : List (List Int × Value)) (k : TKey) (off : Nat) :
    ∀ tm, (getCell tm k off).isSome = true →
      (getCell (writePairs cap a ds tm ps) k off).isSome = true := by
  induction ps with
  | nil => intro tm h; exact h
  | cons p ps ih =>
    intro tm h
    cases p with
    | mk c v =>
      simp only [writePairs]
      exact ih _ (getCell_setCell_isSome cap tm _ k _ off v h)

/-- After a batch write for one attribute, every written cell is written. -/
theorem writePairs_self_isSome (cap : Nat) (a : String) (ds : List Dim)
    (ps : List (List Int × Value)) (hoff : ∀ p ∈ ps, cellOff ds p.1 < cap)
    (c : List Int) (hc : c ∈ ps.map Prod.fst) :
    ∀ tm, (getCell (writePairs cap a ds tm ps) (a, tileCoords ds c) (cellOff ds c)).isSome
      = true := by
  induction ps with
  | nil => simp at hc
  | cons p ps ih =>
    intro tm
    cases p with
    | mk c' v =>
      simp only [writePairs]
      rw [List.map_cons] at hc
      rcases List.mem_cons.mp hc with heq | hmem
      · subst heq
        apply getCell_writePairs_isSome
        rw [getCell_setCell_self cap tm _ _ v (hoff (c, v) (by simp))]
        rfl
      · exact ih (fun q hq => hoff q (by simp [hq])) hmem _

/-- A multi-buffer write preserves the writtenness of every cell. -/
theorem getCell_writeBufs_isSome (cap : Nat) (ds : List Dim) (R : Region)
    (bs : List (String × List Value)) (k : TKey) (off : Nat) :
    ∀ tm, (getCell tm k off).isSome = true →
      (getCell (writeBufs cap ds R tm bs) k off).isSome = true := by
  induction bs with
  | nil => intro tm h; exact h
  | cons b bs ih =>
    intro tm h
    cases b with
    | mk a vs =>
      simp only [writeBufs]
      exact ih _ (getCell_writePairs_isSome cap a ds _ k off tm h)

/-- After a multi-buffer region write, every cell of the region is written
for every supplied attribute whose buffer covers the region. -/
theorem writeBufs_self_isSome (cap : Nat) (ds : List Dim) (R : Region)
    (bufs : List (String × List Value)) (a : String) (vs : List Value)
    (hab : (a, vs) ∈ bufs) (hlen : (regionCoords R).length ≤ vs.length)
    (hoff : ∀ c ∈ regionCoords R, cellOff ds c < cap)
    (c : List Int) (hc : c ∈ regionCoords R) :
    ∀ tm, (getCell (writeBufs cap ds R tm bufs) (a, tileCoords ds c) (cellOff ds c)).isSome
      = true := by
  induction bufs with
  | nil => simp at hab
  | cons b bs ih =>
    intro tm
    cases b with
    | mk a' vs' =>
      simp only [writeBufs]
      rcases List.mem_cons.mp hab with heq | hmem
      · have ha : a = a' := congrArg Prod.fst heq
        have hvs : vs = vs' := congrArg Prod.snd heq
        subst ha
        subst hvs
        apply getCell_writeBufs_isSome
        have hfst : (List.zip (regionCoords R) vs).map Prod.fst = regionCoords R :=
          List.map_fst_zip _ _ hlen
        apply writePairs_self_isSome
        · intro p hp
          exact hoff p.1 (hfst ▸ List.mem_map_of_mem Prod.fst hp)
        · rw [hfst]
          exact hc
      · exact ih hmem _

/-- Reading any list of written cells succeeds. -/
theorem readCellsA_ok_of_isSome (tm : TileMap) (a : String) (ds : List Dim)
    (cs : List (List Int))
    (h : ∀ c ∈ cs, (getCell tm (a, tileCoords ds c) (cellOff ds c)).isSome = true) :
    ∃ vs, readCellsA tm a ds cs = .ok vs := by
  induction cs with
  | nil => exact ⟨[], rfl⟩
  | cons c cs ih =>
    rcases Option.isSome_iff_exists.mp (h c (by simp)) with ⟨v, hv⟩
    rcases ih (fun c' hc' => h c' (by simp [hc'])) with ⟨vs, hvs⟩
    exact ⟨v :: vs, by simp only [readCellsA, hv, hvs]⟩

/-- Reading any attribute list over a region all of whose cells are written
succeeds. -/
theorem readBufs_ok_of_isSome (tm : TileMap) (ds : List Dim) (R : Region)
    (names : List String)
    (h : ∀ a ∈ names, ∀ c ∈ regionCoords R,
      (getCell tm (a, tileCoords ds c) (cellOff ds c)).isSome = true) :
    ∃ res, readBufs tm ds R names = .ok res := by
  induction names with
  | nil => exact ⟨[], rfl⟩
  | cons a as ih =>
    rcases readCellsA_ok_of_isSome tm a ds (regionCoords R) (h a (by simp)) with ⟨vs, hvs⟩
    rcases ih (fun a' ha' => h a' (by simp [ha'])) with ⟨res, hres⟩
    exact ⟨(a, vs) :: res, by simp only [readBufs, hvs, hres]⟩

/-- A successful write certifies every validation it performed and determines
the resulting session state. -/
theorem write_ok_elim (s : Session) (R : Region) (bufs : List (String × List Value))
    (s' : Session) (hw : Session.write s R bufs = .ok s') :
    s.closed = false ∧ s.mode = Mode.write ∧ bufsSized (cellCount R) bufs = true ∧
    regionInDomain s.schema.dims R = true ∧ bufsTyped s.schema bufs = true ∧
    s' = { s with snapshot := writeBufs s.schema.cap s.schema.dims R s.snapshot bufs } := by
  obtain ⟨m, σ, tm, cl⟩ := s
  unfold Session.write at hw
  by_cases h1 : cl
  · simp [h1] at hw
  · by_cases h2 : m = Mode.write
    · by_cases h3 : bufsSized (cellCount R) bufs
      · by_cases h4 : regionInDomain σ.dims R
        · by_cases h5 : bufsTyped σ bufs
          · subst h2
            simp only [h1, h3, h4, h5, if_true, if_false, Bool.false_eq_true,
              reduceIte] at hw
            refine ⟨by simp [h1], rfl, h3, h4, h5, ?_⟩
            cases hw
            simp [Bool.not_eq_true] at h1
            simp [h1]
          · simp [h1, h2, h3, h4, h5] at hw
        · simp [h1, h2, h3, h4] at hw
      · simp [h1, h2, h3] at hw
    · simp [h1, h2] at hw

/-- Every attribute of a well-typed buffer set is known to the schema. -/
theorem attrsKnown_of_bufsTyped (σ : Schema) (bufs : List (String × List Value))
    (h : bufsTyped σ bufs = true) : attrsKnown σ (bufs.map Prod.fst) = true := by
  induction bufs with
  | nil => rfl
  | cons b bs ih =>
    cases b with
    | mk a vs =>
      simp only [bufsTyped, Bool.and_eq_true] at h
      simp only [List.map_cons, attrsKnown, List.all_cons, Bool.and_eq_true]
      refine ⟨?_, by simpa [attrsKnown] using ih h.2⟩
      cases hf : findType σ.attrs a with
      | none => rw [hf] at h; simp at h
      | some ty => simp

/-- A sized buffer set has every buffer of the stated length. -/
theorem length_of_bufsSized (n : Nat) (bufs : List (String × List Value))
    (h : bufsSized n bufs = true) : ∀ b ∈ bufs, b.2.length = n := by
  intro b hb
  have := List.all_eq_true.mp h b hb
  simpa using this

/-- Evaluating a read on an open session whose region and attribute selection
validate reduces to materializing the buffers. -/
theorem read_eval (m : Mode) (σ : Schema) (tm : TileMap) (R : Region)
    (asel : Option (List String))
    (h4 : regionInDomain σ.dims R = true)
    (hk : attrsKnown σ (asel.getD (σ.attrs.map Prod.fst)) = true) :
    Session.read ⟨m, σ, tm, false⟩ R asel =
      readBufs tm σ.dims R (asel.getD (σ.attrs.map Prod.fst)) := by
  unfold Session.read
  simp [h4, hk]

/-- A successful read certifies its validations and is a buffer
materialization over the selected attribute names. -/
theorem read_ok_elim (m : Mode) (σ : Schema) (tm : TileMap) (R : Region)
    (asel : Option (List String)) (out : List (String × List Value))
    (h : Session.read ⟨m, σ, tm, false⟩ R asel = .ok out) :
    regionInDomain σ.dims R = true ∧
    attrsKnown σ (asel.getD (σ.attrs.map Prod.fst)) = true ∧
    readBufs tm σ.dims R (asel.getD (σ.attrs.map Prod.fst)) = .ok out := by
  unfold Session.read at h
  by_cases h4 : regionInDomain σ.dims R
  · by_cases hk : attrsKnown σ (asel.getD (σ.attrs.map Prod.fst))
    · simp only [h4, hk, if_true, Bool.false_eq_true, reduceIte] at h
      exact ⟨h4, hk, h⟩
    · simp [h4, hk] at h
  · simp [h4] at h

/-- A materialized result lists exactly the requested attribute names, in
request order. -/
theorem readBufs_map_fst (tm : TileMap) (ds : List Dim) (R : Region)
    (names : List String) (res : List (String × List Value))
    (h : readBufs tm ds R names = .ok res) : res.map Prod.fst = names := by
  induction names generalizing res with
  | nil =>
    cases h
    rfl
  | cons a as ih =>
    simp only [readBufs] at h
    cases hcell : readCellsA tm a ds (regionCoords R) with
    | error err => rw [hcell] at h; cases h
    | ok vs =>
      rw [hcell] at h
      cases hrest : readBufs tm ds R as with
      | error err => rw [hrest] at h; cases h
      | ok rest =>
        rw [hrest] at h
        cases h
        simp [ih rest hrest]

/-- Each entry of a materialized result is the cell-by-cell read of its
attribute. -/
theorem readBufs_ok_inv (tm : TileMap) (ds : List Dim) (R : Region)
    (names : List String) (res : List (String × List Value))
    (h : readBufs tm ds R names = .ok res) :
    ∀ n ∈ names, ∃ vs, readCellsA tm n ds (regionCoords R) = .ok vs ∧ (n, vs) ∈ res := by
  induction names generalizing res with
  | nil => intro n hn; simp at hn
  | cons a as ih =>
    intro n hn
    simp only [readBufs] at h
    cases hcell : readCellsA tm a ds (regionCoords R) with
    | error err => rw [hcell] at h; cases h
    | ok vs =>
      rw [hcell] at h
      cases hrest : readBufs tm ds R as with
      | error err => rw [hrest] at h; cases h
      | ok rest =>
        rw [hrest] at h
        cases h
        rcases List.mem_cons.mp hn with rfl | hmem
        · exact ⟨vs, hcell, by simp⟩
        · rcases ih rest hrest n hmem with ⟨vs', hv1, hv2⟩
          exact ⟨vs', hv1, by simp [hv2]⟩

/-- Materializing a list of attributes succeeds as soon as each attribute's
cell-by-cell read succeeds, and returns those per-attribute buffers. -/
theorem readBufs_of_each (tm : TileMap) (ds : List Dim) (R : Region)
    (full : List (String × List Value)) (names : List String)
    (h : ∀ n ∈ names, ∃ vs, readCellsA tm n ds (regionCoords R) = .ok vs ∧ (n, vs) ∈ full) :
    ∃ res, readBufs tm ds R names = .ok res ∧
      res.map Prod.fst = names ∧ ∀ p ∈ res, p ∈ full := by
  induction names with
  | nil => exact ⟨[], rfl, rfl, by simp⟩
  | cons a as ih =>
    rcases h a (by simp) with ⟨vs, hv1, hv2⟩
    rcases ih (fun n hn => h n (by simp [hn])) with ⟨res, hr1, hr2, hr3⟩
    refine ⟨(a, vs) :: res, ?_, ?_, ?_⟩
    · simp only [readBufs, hv1, hr1]
    · simp [hr2]
    · intro p hp
      rcases List.mem_cons.mp hp with rfl | hmem
      · exact hv2
      · exact hr3 p hmem

/-- A name the schema knows occurs among the schema's attribute names. -/
theorem mem_of_findType_isSome (attrs : List (String × CellType)) (n : String)
    (h : (findType attrs n).isSome = true) : n ∈ attrs.map Prod.fst := by
  induction attrs with
  | nil => simp [findType] at h
  | cons p rest ih =>
    cases p with
    | mk nm ty =>
      by_cases hn : nm = n
      · simp [hn]
      · simp only [findType, hn, if_false, Bool.false_eq_true, reduceIte] at h
        simp [ih h]

/-- A request containing a name the schema does not know fails the
attribute-known check. -/
theorem attrsKnown_false_of_unknown (σ : Schema) (names : List String) (bad : String)
    (hmem : bad ∈ names) (hbad : findType σ.attrs bad = none) :
    attrsKnown σ names = false := by
  rcases Bool.eq_false_or_eq_true (attrsKnown σ names) with h | h
  · have := List.all_eq_true.mp h bad hmem
    rw [hbad] at this
    cases this
  · exact h

/-- Opening a read session on an existing array always succeeds and snapshots
the committed tiles. -/
theorem openRead_eval (e : Engine) (σ : Schema) (he : e.arr = some σ) :
    openSession e Mode.read =
      .ok ({ e with readCount := e.readCount + 1 }, ⟨Mode.read, σ, e.tiles, false⟩) := by
  unfold openSession
  rw [he]

/-- The script's `write_array` on the script's array with no write session
open: it opens a write session, performs the full-grid write, and commits it
at close. -/
theorem write_array_eval (tm0 tmW : TileMap) (n0 : Nat)
    (hW : Session.write ⟨Mode.write, scriptSchema, tm0, false⟩ fullRegion scriptBufs =
      .ok ⟨Mode.write, scriptSchema, tmW, false⟩) :
    write_array ⟨some scriptSchema, tm0, false, n0⟩ =
      .ok ⟨some scriptSchema, tmW, false, n0⟩ := by
  unfold write_array
  simp only [show openSession ⟨some scriptSchema, tm0, false, n0⟩ Mode.write =
    .ok (⟨some scriptSchema, tm0, true, n0⟩, ⟨Mode.write, scriptSchema, tm0, false⟩) from rfl,
    hW]
  rfl

/-- The script's `read_array` over committed tiles whose slice materialization
succeeds returns that materialization and restores the engine. -/
theorem read_array_eval (tmW : TileMap) (n : Nat) (res : List (String × List Value))
    (h : readBufs tmW scriptSchema.dims sliceRegion ["a1", "a2"] = .ok res) :
    read_array ⟨some scriptSchema, tmW, false, n⟩ =
      .ok (⟨some scriptSchema, tmW, false, n⟩, res) := by
  unfold read_array
  simp only [show openSession ⟨some scriptSchema, tmW, false, n⟩ Mode.read =
      .ok (⟨some scriptSchema, tmW, false, n + 1⟩, ⟨Mode.read, scriptSchema, tmW, false⟩)
      from rfl,
    show Session.read ⟨Mode.read, scriptSchema, tmW, false⟩ sliceRegion none =
      readBufs tmW scriptSchema.dims sliceRegion ["a1", "a2"] from rfl,
    h]
  rfl

/-- The script's `read_array_subselect`, analogously, over attribute `a1`
alone. -/
theorem subselect_eval (tmW : TileMap) (n : Nat) (res : List (String × List Value))
    (h : readBufs tmW scriptSchema.dims sliceRegion ["a1"] = .ok res) :
    read_array_subselect ⟨some scriptSchema, tmW, false, n⟩ =
      .ok (⟨some scriptSchema, tmW, false, n⟩, res) := by
  unfold read_array_subselect
  simp only [show openSession ⟨some scriptSchema, tmW, false, n⟩ Mode.read =
      .ok (⟨some scriptSchema, tmW, false, n + 1⟩, ⟨Mode.read, scriptSchema, tmW, false⟩)
      from rfl,
    show Session.read ⟨Mode.read, scriptSchema, tmW, false⟩ sliceRegion (some ["a1"]) =
      readBufs tmW scriptSchema.dims sliceRegion ["a1"] from rfl,
    h]
  rfl

/-- Whenever the script's create step leaves the script's array with no open
write session, the whole script run succeeds: the full-grid write precedes
both reads, so every cell they touch is written. -/
theorem scriptMain_ok (e0 : Engine) (tm : TileMap) (n : Nat)
    (hc : create_array e0 = .ok ⟨some scriptSchema, tm, false, n⟩) :
    ∃ r, scriptMain e0 = .ok r := by
  have hsub : ∀ c ∈ regionCoords sliceRegion, c ∈ regionCoords fullRegion := by decide
  have hoff : ∀ c ∈ regionCoords fullRegion,
      cellOff scriptSchema.dims c < scriptSchema.cap := by decide
  have hlen1 : (regionCoords fullRegion).length ≤ data_a1.length := by decide
  have hlen2 : (regionCoords fullRegion).length ≤ data_a2.length := by decide
  have hsome : ∀ a ∈ ["a1", "a2"], ∀ c ∈ regionCoords sliceRegion,
      (getCell (writeBufs scriptSchema.cap scriptSchema.dims fullRegion tm scriptBufs)
        (a, tileCoords scriptSchema.dims c) (cellOff scriptSchema.dims c)).isSome = true := by
    intro a ha c hc2
    have hcf : c ∈ regionCoords fullRegion := hsub c hc2
    rcases List.mem_cons.mp ha with rfl | ha2
    · exact writeBufs_self_isSome scriptSchema.cap scriptSchema.dims fullRegion scriptBufs
        _ data_a1 (by simp [scriptBufs]) hlen1 hoff c hcf tm
    · rcases List.mem_cons.mp ha2 with rfl | ha3
      · exact writeBufs_self_isSome scriptSchema.cap scriptSchema.dims fullRegion scriptBufs
          _ data_a2 (by simp [scriptBufs]) hlen2 hoff c hcf tm
      · simp at ha3
  have hsome1 : ∀ a ∈ ["a1"], ∀ c ∈ regionCoords sliceRegion,
      (getCell (writeBufs scriptSchema.cap scriptSchema.dims fullRegion tm scriptBufs)
        (a, tileCoords scriptSchema.dims c) (cellOff scriptSchema.dims c)).isSome = true := by
    intro a ha
    rcases List.mem_cons.mp ha with rfl | ha2
    · exact hsome _ (by simp)
    · simp at ha2
  rcases readBufs_ok_of_isSome _ scriptSchema.dims sliceRegion ["a1", "a2"] hsome
    with ⟨res1, hres1⟩
  rcases readBufs_ok_of_isSome _ scriptSchema.dims sliceRegion ["a1"] hsome1
    with ⟨res2, hres2⟩
  have h1 := write_array_eval tm
    (writeBufs scriptSchema.cap scriptSchema.dims fullRegion tm scriptBufs) n rfl
  have h2 := read_array_eval
    (writeBufs scriptSchema.cap scriptSchema.dims fullRegion tm scriptBufs) n res1 hres1
  have h3 := subselect_eval
    (writeBufs scriptSchema.cap scriptSchema.dims fullRegion tm scriptBufs) n res2 hres2
  refine ⟨(res1, res2), ?_⟩
  unfold scriptMain
  simp only [hc, h1, h2, h3]

/-- Claim C2: for every coordinate tuple that lies within the Domain bounds
of every dimension, decoding the encoding (tile coordinate
`floor((coord_i - lo_i) / tileExtent_i)` per dimension, plus row-major
in-tile offset) yields the tuple again — the layout mapping is a bijection on
valid coordinates. -/
theorem claim_layout_roundtrip (ds : List Dim) (c : List Int) (p : List Nat × Nat)
    (hv : validDims ds) (he : encodeChecked ds c = .ok p) :
    decode ds p.1 p.2 = c := by
  unfold encodeChecked at he
  by_cases hb : inBounds ds c
  · simp only [hb, if_true] at he
    have hp := Except.ok.inj he
    subst hp
    exact decode_encode ds c hv hb
  · simp [hb] at he

/-- Witness for claim C2 at the script's Domain and the coordinate (3, 2),
which encodes to tile (0, 0) at in-tile offset 9. -/
theorem claim_layout_roundtrip_witness :
    validDims scriptDomain ∧ encodeChecked scriptDomain [3, 2] = .ok ([0, 0], 9) ∧
      decode scriptDomain [0, 0] 9 = [3, 2] :=
  ⟨by decide, by rfl,
    claim_layout_roundtrip scriptDomain [3, 2] ([0, 0], 9) (by decide) (by rfl)⟩

/-- Claim C5: a write whose supplied buffer length differs from the region's
cell count fails with `ShapeMismatchError` and performs no partial writes: in
this model a write changes state only by returning a successor session, and
the failing call returns none, so every tile of the array is unchanged. -/
theorem claim_write_shape_mismatch (σ : Schema) (tm : TileMap) (R : Region)
    (bufs : List (String × List Value)) (h : bufsSized (cellCount R) bufs = false) :
    Session.write ⟨Mode.write, σ, tm, false⟩ R bufs = .error .shapeMismatch ∧
    ∀ s', Session.write ⟨Mode.write, σ, tm, false⟩ R bufs ≠ .ok s' := by
  have hmain : Session.write ⟨Mode.write, σ, tm, false⟩ R bufs = .error .shapeMismatch := by
    unfold Session.write
    simp [h]
  exact ⟨hmain, fun s' hc => by rw [hmain] at hc; cases hc⟩

/-- Witness for claim C5: a one-element `a1` buffer against the 16-cell full
region fails with `ShapeMismatchError`. -/
theorem claim_write_shape_mismatch_witness :
    bufsSized (cellCount fullRegion) [("a1", [Value.u8 97])] = false ∧
      Session.write ⟨Mode.write, scriptSchema, [], false⟩ fullRegion [("a1", [Value.u8 97])]
        = .error .shapeMismatch :=
  ⟨by decide, (claim_write_shape_mismatch scriptSchema [] fullRegion _ (by decide)).1⟩

/-- Claim C6: a read whose region exceeds the Domain bounds in any dimension
fails with `DomainError` (`OutOfDomainError`) and touches no storage: the
identical error results whatever the tile storage contains (the conclusion
quantifies over every tile map), and a read never creates or modifies a
tile. -/
theorem claim_read_out_of_domain (σ : Schema) (R : Region) (m : Mode)
    (asel : Option (List String)) (h : regionInDomain σ.dims R = false) :
    ∀ tm, Session.read ⟨m, σ, tm, false⟩ R asel = .error .outOfDomain := by
  intro tm
  unfold Session.read
  simp [h]

/-- Witness for claim C6: reading rows `[1, 5]` exceeds the script Domain's
row bound 4 and fails with `OutOfDomainError` over the fully written
storage. -/
theorem claim_read_out_of_domain_witness :
    regionInDomain scriptSchema.dims [(1, 5), (2, 4)] = false ∧
      Session.read ⟨Mode.read, scriptSchema, demoWritten, false⟩ [(1, 5), (2, 4)] none
        = .error .outOfDomain :=
  ⟨by decide,
    claim_read_out_of_domain scriptSchema [(1, 5), (2, 4)] Mode.read none (by decide)
      demoWritten⟩

/-- Claim C7: while a write session is open on an array, a second write-open
fails fast with `ConcurrencyError` (`IncompatibleMode`) — `openSession` is a
total synchronous function, so the failure neither blocks nor queues — while
a read-open always succeeds, for any number of already-open read sessions
(the engine's `readCount` is arbitrary). -/
theorem claim_write_session_exclusive (e : Engine) (σ : Schema) (he : e.arr = some σ) :
    (e.writeOpen = true → openSession e Mode.write = .error .incompatibleMode) ∧
    openSession e Mode.read =
      .ok ({ e with readCount := e.readCount + 1 }, ⟨Mode.read, σ, e.tiles, false⟩) := by
  unfold openSession
  rw [he]
  exact ⟨fun hw => by simp [hw], rfl⟩

/-- Witness for claim C7 on an engine with an open write session and five
open read sessions. -/
theorem claim_write_session_exclusive_witness :
    (⟨some scriptSchema, [], true, 5⟩ : Engine).arr = some scriptSchema ∧
    openSession ⟨some scriptSchema, [], true, 5⟩ Mode.write = .error .incompatibleMode ∧
    openSession ⟨some scriptSchema, [], true, 5⟩ Mode.read =
      .ok (⟨some scriptSchema, [], true, 6⟩, ⟨Mode.read, scriptSchema, [], false⟩) :=
  ⟨rfl, (claim_write_session_exclusive ⟨some scriptSchema, [], true, 5⟩ scriptSchema rfl).1 rfl,
    (claim_write_session_exclusive ⟨some scriptSchema, [], true, 5⟩ scriptSchema rfl).2⟩

/-- Claim C8: `close()` is idempotent: for every session, in both modes, a
second `close()` after a first returns the same engine and session states
unchanged — in particular all persisted array state is unchanged — and
`closeSession` is total, so the second call cannot error. -/
theorem claim_close_idempotent (e : Engine) (s : Session) :
    closeSession (closeSession e s).1 (closeSession e s).2 = closeSession e s := by
  by_cases h : s.closed
  · simp [closeSession, h]
  · cases hm : s.mode
    · simp [closeSession, h, hm]
    · simp [closeSession, h, hm]

/-- Claim C9: the script's `create_array` is idempotent at its public
interface: if an array object already exists, it returns normally without
attempting creation and leaves the engine — schema and all stored tiles —
unchanged, so running the script repeatedly never fails with
`AlreadyExists`. -/
theorem claim_create_array_idempotent (e : Engine) (σ : Schema) (he : e.arr = some σ) :
    create_array e = .ok e := by
  unfold create_array objectType
  rw [he]
  rfl

/-- Witness for claim C9 on an engine holding the script's array, fully
written. -/
theorem claim_create_array_idempotent_witness :
    (⟨some scriptSchema, demoWritten, false, 0⟩ : Engine).arr = some scriptSchema ∧
    create_array ⟨some scriptSchema, demoWritten, false, 0⟩ =
      .ok ⟨some scriptSchema, demoWritten, false, 0⟩ :=
  ⟨rfl, claim_create_array_idempotent ⟨some scriptSchema, demoWritten, false, 0⟩ scriptSchema rfl⟩

/-- Claim C3: the end-to-end 4x4 scenario: from a fresh engine the script
creates the array, writes `a1` = 97..112 and the `a2` pairs over the full
grid, and the slice read of rows `[1, 2]`, cols `[2, 4]` returns
`a1` = 98, 99, 100, 102, 103, 104 with the matching `a2` pairs
(2.1, 2.2), (3.1, 3.2), (4.1, 4.2), (6.1, 6.2), (7.1, 7.2), (8.1, 8.2);
the subselect read returns only `a1`, with identical values. -/
theorem claim_script_scenario :
    scriptMain Engine.init =
      .ok ([("a1", expected_a1), ("a2", expected_a2)], [("a1", expected_a1)]) := rfl

/-- Claim C1: for every region written through a write session, reading that
region back — in the same session, or in any read session opened after the
write session's `close()` — returns the written per-attribute buffers,
element for element, in the Domain's canonical row-major cell order: the
read result lists the cells of the region in row-major order whatever the
tile boundaries, so physical tiling is invisible. -/
theorem claim_write_read_roundtrip (σ : Schema) (tm : TileMap) (R : Region)
    (bufs : List (String × List Value)) (s' : Session)
    (hv : validDims σ.dims) (hnd : (bufs.map Prod.fst).Nodup)
    (hw : Session.write ⟨Mode.write, σ, tm, false⟩ R bufs = .ok s') :
    Session.read s' R (some (bufs.map Prod.fst)) = .ok bufs ∧
    ∀ e : Engine, e.arr = some σ →
      ∀ q, openSession (closeSession e s').1 Mode.read = .ok q →
        Session.read q.2 R (some (bufs.map Prod.fst)) = .ok bufs := by
  rcases write_ok_elim _ R bufs s' hw with ⟨-, -, h3, h4, h5, h6⟩
  have hk : attrsKnown σ (bufs.map Prod.fst) = true := attrsKnown_of_bufsTyped σ bufs h5
  have hread : readBufs (writeBufs σ.cap σ.dims R tm bufs) σ.dims R (bufs.map Prod.fst) =
      .ok bufs :=
    readBufs_writeBufs σ.cap σ.dims R rfl hv h4 bufs hnd (length_of_bufsSized _ _ h3) tm
  constructor
  · rw [h6]
    exact (read_eval Mode.write σ (writeBufs σ.cap σ.dims R tm bufs) R
      (some (bufs.map Prod.fst)) h4 hk).trans hread
  · intro e he q hq
    have hcl : (closeSession e s').1 =
        { e with tiles := writeBufs σ.cap σ.dims R tm bufs, writeOpen := false } := by
      rw [h6]
      rfl
    rw [hcl] at hq
    rw [openRead_eval { e with tiles := writeBufs σ.cap σ.dims R tm bufs, writeOpen := false }
      σ he] at hq
    rw [← Except.ok.inj hq]
    exact (read_eval Mode.read σ (writeBufs σ.cap σ.dims R tm bufs) R
      (some (bufs.map Prod.fst)) h4 hk).trans hread

/-- Witness for claim C1 at the script's full-grid write from an empty tile
index: the same-session read of the full region returns both written buffers
verbatim. -/
theorem claim_write_read_roundtrip_witness :
    validDims scriptSchema.dims ∧ (scriptBufs.map Prod.fst).Nodup ∧
    Session.write ⟨Mode.write, scriptSchema, [], false⟩ fullRegion scriptBufs =
      .ok ⟨Mode.write, scriptSchema, demoWritten, false⟩ ∧
    Session.read ⟨Mode.write, scriptSchema, demoWritten, false⟩ fullRegion
      (some (scriptBufs.map Prod.fst)) = .ok scriptBufs :=
  ⟨by decide, by decide, by rfl,
    (claim_write_read_roundtrip scriptSchema [] fullRegion scriptBufs
      ⟨Mode.write, scriptSchema, demoWritten, false⟩ (by decide) (by decide) (by rfl)).1⟩

/-- Claim C4: a read filtered to known attribute names returns exactly those
attributes, with values identical to the unfiltered read of the same region;
a read with no attribute filter returns all Schema attributes; and a read
requesting any name outside the Schema fails with `UnknownAttribute`. -/
theorem claim_read_subselection (σ : Schema) (tm : TileMap) (m : Mode) (R : Region)
    (names names2 : List String) (bad : String) (full : List (String × List Value))
    (hk : attrsKnown σ names = true)
    (hfull : Session.read ⟨m, σ, tm, false⟩ R none = .ok full)
    (hbad : bad ∈ names2) (hbadu : findType σ.attrs bad = none) :
    (∃ res, Session.read ⟨m, σ, tm, false⟩ R (some names) = .ok res ∧
      res.map Prod.fst = names ∧ ∀ p ∈ res, p ∈ full) ∧
    full.map Prod.fst = σ.attrs.map Prod.fst ∧
    Session.read ⟨m, σ, tm, false⟩ R (some names2) = .error .unknownAttribute := by
  rcases read_ok_elim m σ tm R none full hfull with ⟨h4, hkd, hrb⟩
  refine ⟨?_, readBufs_map_fst _ _ _ _ _ hrb, ?_⟩
  · have hinv := readBufs_ok_inv tm σ.dims R (σ.attrs.map Prod.fst) full hrb
    have heach : ∀ n ∈ names,
        ∃ vs, readCellsA tm n σ.dims (regionCoords R) = .ok vs ∧ (n, vs) ∈ full := by
      intro n hn
      have hnk : (findType σ.attrs n).isSome = true := by
        have := List.all_eq_true.mp hk n hn
        simpa using this
      exact hinv n (mem_of_findType_isSome σ.attrs n hnk)
    rcases readBufs_of_each tm σ.dims R full names heach with ⟨res, hr1, hr2, hr3⟩
    exact ⟨res, (read_eval m σ tm R (some names) h4 hk).trans hr1, hr2, hr3⟩
  · have hkf : attrsKnown σ names2 = false :=
      attrsKnown_false_of_unknown σ names2 bad hbad hbadu
    unfold Session.read
    simp [h4, hkf]

/-- Witness for claim C4 over the fully written script array: subselecting
`a1` on the slice returns only `a1` with the unfiltered values, and
requesting the unknown attribute `a3` fails with `UnknownAttribute`. -/
theorem claim_read_subselection_witness :
    (attrsKnown scriptSchema ["a1"] = true ∧
      Session.read ⟨Mode.read, scriptSchema, demoWritten, false⟩ sliceRegion none =
        .ok [("a1", expected_a1), ("a2", expected_a2)] ∧
      "a3" ∈ ["a3"] ∧ findType scriptSchema.attrs ("a3") = none) ∧
    ((∃ res, Session.read ⟨Mode.read, scriptSchema, demoWritten, false⟩ sliceRegion
        (some ["a1"]) = .ok res ∧ res.map Prod.fst = ["a1"] ∧
        ∀ p ∈ res, p ∈ [("a1", expected_a1), ("a2", expected_a2)]) ∧
      ([("a1", expected_a1), ("a2", expected_a2)] :
          List (String × List Value)).map Prod.fst = scriptSchema.attrs.map Prod.fst ∧
      Session.read ⟨Mode.read, scriptSchema, demoWritten, false⟩ sliceRegion (some ["a3"]) =
        .error .unknownAttribute) :=
  ⟨⟨by decide, by rfl, by decide, by decide⟩,
    claim_read_subselection scriptSchema demoWritten Mode.read sliceRegion ["a1"] ["a3"]
      ("a3") [("a1", expected_a1), ("a2", expected_a2)] (by decide) (by rfl) (by decide)
      (by decide)⟩

/-- Claim C10: in every execution of the script — from any engine state the
script can encounter: no array yet, or the script's own array with any
committed tiles, any write-session flag and any open-read count — every read
the script issues is preceded in program order by the full-domain write of
both attributes, so the dense read-before-write branch (`TileNotFound`) is
unreachable: `scriptMain` never returns that error. -/
theorem claim_script_no_tile_not_found (e : Engine)
    (h : e.arr = none ∨ e.arr = some scriptSchema) :
    scriptMain e ≠ .error .tileNotFound := by
  obtain ⟨arr0, tm0, b0, n0⟩ := e
  rcases h with h | h
  · simp only at h
    subst h
    cases b0 with
    | false =>
      rcases scriptMain_ok ⟨none, tm0, false, n0⟩ [] n0 rfl with ⟨r, hr⟩
      rw [hr]
      intro hcontra
      simp at hcontra
    | true =>
      rw [show scriptMain ⟨none, tm0, true, n0⟩ = .error .incompatibleMode from rfl]
      intro hcontra
      simp at hcontra
  · simp only at h
    subst h
    cases b0 with
    | false =>
      rcases scriptMain_ok ⟨some scriptSchema, tm0, false, n0⟩ tm0 n0 rfl with ⟨r, hr⟩
      rw [hr]
      intro hcontra
      simp at hcontra
    | true =>
      rw [show scriptMain ⟨some scriptSchema, tm0, true, n0⟩ = .error .incompatibleMode from rfl]
      intro hcontra
      simp at hcontra

/-- Witness for claim C10 at the fresh engine. -/
theorem claim_script_no_tile_not_found_witness :
    (Engine.init.arr = none ∨ Engine.init.arr = some scriptSchema) ∧
      scriptMain Engine.init ≠ .error .tileNotFound :=
  ⟨Or.inl rfl, claim_script_no_tile_not_found Engine.init (Or.inl rfl)⟩

end TileDB
